import Mathlib

/-!
Verification development for the media-scout retrieval subsystem.

The Python sources are embedded shallowly:

* strings are `List Char` (or `String` where the code never inspects the
  characters), Python `str.strip()` is `pyStrip`, `re.sub(r"\s+", " ", ·)`
  is `collapseWs`, and `re.split(r"(?<=[.!?])\s+", ·)` is `sentenceSplit`;
* floating point scores are modelled as rationals, the literal `1e-6`
  threshold of `utils.Retriever.search` as `mkRat 1 1000000`;
* the TF-IDF vectorizer plus cosine similarity of scikit-learn is an
  abstract parameter `sim : String → String → ℚ` (the ranking logic under
  study never looks inside it);
* `numpy.argsort` (ascending, stable for ties, as observed on small inputs
  where numpy falls back to insertion sort) is `argsortAsc`;
* Python `while` loops whose progress is data dependent are embedded with
  an explicit fuel argument; fuel exhaustion returns `none`, so divergence
  of the original loop is expressible.
-/

/-- Python `str.strip()` on a list of characters: drop whitespace from both ends. -/
def pyStrip (s : List Char) : List Char :=
  ((s.dropWhile Char.isWhitespace).reverse.dropWhile Char.isWhitespace).reverse

/-- Worker for `collapseWs`; the flag records whether we are inside a whitespace
run that has already emitted its single replacement space. -/
def collapseWsAux : List Char → Bool → List Char
  | [], _ => []
  | c :: rest, skipping =>
    if c.isWhitespace then
      if skipping then collapseWsAux rest true
      else ' ' :: collapseWsAux rest true
    else c :: collapseWsAux rest false

/-- Python `re.sub(r"\s+", " ", s)`: collapse every maximal whitespace run to one space. -/
def collapseWs (s : List Char) : List Char :=
  collapseWsAux s false

/-- Characters the sentence splitter treats as sentence-ending punctuation. -/
def isSentenceEnd (c : Char) : Bool :=
  c = '.' || c = '!' || c = '?'

/-- Worker for `sentenceSplit`. In mode `false` it accumulates the current piece
(reversed) in `cur`; a sentence boundary is a `.`, `!` or `?` whose successor is
whitespace. In mode `true` it consumes the maximal whitespace run that the
regex delimiter `\s+` swallows. -/
def splitAux : List Char → Bool → List Char → List (List Char)
  | [], true, _ => [[]]
  | [], false, cur => [cur.reverse]
  | c :: rest, true, _ =>
    if c.isWhitespace then splitAux rest true []
    else splitAux rest false [c]
  | c :: rest, false, cur =>
    if isSentenceEnd c && rest.head?.any Char.isWhitespace then
      (c :: cur).reverse :: splitAux rest true []
    else splitAux rest false (c :: cur)

/-- Python `re.split(r"(?<=[.!?])\s+", s)`: split after sentence punctuation
followed by whitespace, consuming the whitespace. -/
def sentenceSplit (s : List Char) : List (List Char) :=
  splitAux s false []

/-- Normalized de-duplication key of `utils.extractive_bullets`:
`s[:120].lower()`. -/
def sentKey (s : List Char) : List Char :=
  (s.take 120).map Char.toLower

/-- Value of `numpy.ndarray.max()` on the (never empty in use) score list. -/
def npMax : List ℚ → ℚ
  | [] => 0
  | x :: xs => xs.foldl max x

/-- Ascending-by-score, ties-by-index ordering on indices into the score list
`xs`; this is the total order `argsortAsc` sorts by. -/
def idxLe (xs : List ℚ) (i j : Nat) : Prop :=
  xs.getD i 0 < xs.getD j 0 ∨ (xs.getD i 0 = xs.getD j 0 ∧ i ≤ j)

instance (xs : List ℚ) (i j : Nat) : Decidable (idxLe xs i j) := by
  unfold idxLe
  infer_instance

/-- Insert index `i` into an index list sorted ascending by score, ties by
index; this is the ordering `numpy.argsort` produces on small arrays. -/
def sortInsert (xs : List ℚ) (i : Nat) : List Nat → List Nat
  | [] => [i]
  | j :: rest =>
    if idxLe xs i j then i :: j :: rest
    else j :: sortInsert xs i rest

/-- Model of `numpy.argsort(xs)`: indices `0 .. xs.length - 1` sorted ascending
by value, equal values keeping their original index order. -/
def argsortAsc (xs : List ℚ) : List Nat :=
  (List.range xs.length).foldr (sortInsert xs) []

/-- Python dataclass `utils.Chunk`. -/
structure Chunk where
  source_title : String
  source_url : String
  text : String
deriving DecidableEq

namespace Retrieval

/-- Loop of `retrieval.chunk_text`, with fuel on the left of the window index
`i`; the advance is the clamped `max(1, chunk_chars - overlap)` of the source. -/
def chunkTextAux (t : List Char) (chunk_chars overlap : Nat) : Nat → Nat → List (List Char)
  | 0, _ => []
  | fuel + 1, i =>
    if i < t.length then
      (let ch := pyStrip ((t.drop i).take chunk_chars)
       if ch = [] then [] else [ch]) ++
        chunkTextAux t chunk_chars overlap fuel (i + max 1 (chunk_chars - overlap))
    else []

/-- Python `retrieval.chunk_text`: normalize whitespace, strip, then walk the
text with the clamped advance. Fuel `t.length` always suffices because the
advance is at least one. -/
def chunk_text (text : List Char) (chunk_chars overlap : Nat) : List (List Char) :=
  let t := pyStrip (collapseWs text)
  if t = [] then [] else chunkTextAux t chunk_chars overlap t.length 0

/-- Modelled from the spec: the chunker "walks the normalized text with a
sliding window of length `chunk_size`, advancing the window start by
`chunk_size - overlap` each step", emitting each trimmed window once
non-empty, the final window truncated to the remaining text. Window starts
are the multiples of `step` below the text length, in closed form. -/
def specChunkWalk (t : List Char) (chunk_chars step : Nat) : List (List Char) :=
  (List.range' 0 ((t.length + step - 1) / step) step).filterMap fun i =>
    let w := pyStrip ((t.drop i).take chunk_chars)
    if w = [] then none else some w

/-- Index selection of `retrieval.top_k_passages`: `np.argsort(-scores)[:k]`. -/
def topKIdxs (scores : List ℚ) (k : Nat) : List Nat :=
  (argsortAsc (scores.map fun x => -x)).take k

/-- Python `retrieval.top_k_passages`, with the fitted-vectorizer dot product
abstracted as `score question passage`. -/
def top_k_passages (score : String → String → ℚ) (question : String)
    (passages : List String) (k : Nat) : List (ℚ × String) :=
  if passages = [] then []
  else
    let scores := passages.map (score question)
    (topKIdxs scores k).map fun i => (scores.getD i 0, passages.getD i "")

/-- Loop of `retrieval.bullet_summary`: append each stripped sentence that is
non-empty and longer than 30 characters, stopping as soon as `n` are held. -/
def bsGo (n : Nat) : List (List Char) → List (List Char) → List (List Char)
  | [], out => out
  | s :: rest, out =>
    let out' := if pyStrip s ≠ [] ∧ 30 < (pyStrip s).length then out ++ [pyStrip s] else out
    if n ≤ out'.length then out' else bsGo n rest out'

/-- Python `retrieval.bullet_summary`. -/
def bullet_summary (text : List Char) (n : Nat) : List (List Char) :=
  if text = [] then [] else bsGo n (sentenceSplit (pyStrip text)) []

end Retrieval

namespace Utils

/-- Loop of `utils.chunk_text`, fuelled: `j = min(n, i + chunk_chars)`, emit
`text[i:j]`, stop when `j` hits the end, else restart at `max(0, j - overlap)`
(natural subtraction). Fuel exhaustion, `none`, models non-termination. -/
def chunkTextFuel (t : List Char) (chunk_chars overlap : Nat) : Nat → Nat → Option (List (List Char))
  | 0, _ => none
  | fuel + 1, i =>
    if i < t.length then
      let j := min t.length (i + chunk_chars)
      let piece := (t.drop i).take (j - i)
      if j = t.length then some [piece]
      else
        match chunkTextFuel t chunk_chars overlap fuel (j - overlap) with
        | none => none
        | some rest => some (piece :: rest)
    else some []

/-- Python `utils.chunk_text` (strip only, no whitespace collapsing). -/
def chunk_text (text : List Char) (chunk_chars overlap fuel : Nat) : Option (List (List Char)) :=
  let t := pyStrip text
  if t = [] then some [] else chunkTextFuel t chunk_chars overlap fuel 0

/-- Window start offsets produced by the `utils.chunk_text` loop, fuelled in
lockstep with `chunkTextFuel`. -/
def chunkStartsF (len chunk_chars overlap : Nat) : Nat → Nat → List Nat
  | 0, _ => []
  | fuel + 1, i =>
    if i < len then
      if len ≤ i + chunk_chars then [i]
      else i :: chunkStartsF len chunk_chars overlap fuel (i + (chunk_chars - overlap))
    else []

/-- Windows of `utils.chunk_text` on valid parameters: the slice of length
`chunk_chars` (truncated at the end of the text) at each start offset. -/
def chunkWindows (t : List Char) (chunk_chars overlap : Nat) : List (List Char) :=
  (chunkStartsF t.length chunk_chars overlap (t.length + 1) 0).map
    fun s => (t.drop s).take chunk_chars

/-- Effective similarity row of `utils.Retriever.search`: the query is replaced
by the placeholder `"summary"` when blank, then scored against every chunk. -/
def simsOf (sim : String → String → ℚ) (chunks : List Chunk) (query : String) : List ℚ :=
  chunks.map fun c => sim (if pyStrip query.toList = [] then "summary" else query) c.text

/-- Index selection of the scored path of `utils.Retriever.search`:
`sims.argsort()[::-1][:k]`. -/
def searchIdxs (sims : List ℚ) (k : Nat) : List Nat :=
  ((argsortAsc sims).reverse).take k

/-- Python `utils.Retriever.search`, with the TF-IDF cosine similarity
abstracted as `sim query chunkText`. -/
def Retriever.search (sim : String → String → ℚ) (chunks : List Chunk) (query : String)
    (k : Nat) : List (ℚ × Chunk) :=
  if chunks = [] then []
  else
    let sims := simsOf sim chunks query
    if npMax sims < mkRat 1 1000000 then
      (chunks.take k).map fun c => ((0 : ℚ), c)
    else
      (searchIdxs sims k).map fun i => (sims.getD i 0, chunks.getD i ⟨"", "", ""⟩)

/-- Inner sentence loop of `utils.extractive_bullets` over one chunk's
sentences; returns the seen-key set, the output list, and whether the early
`return` (output full) fired. -/
def ebSents (n : Nat) : List (List Char) → List (List Char) → List (List Char) →
    List (List Char) × List (List Char) × Bool
  | [], seen, out => (seen, out, false)
  | s :: rest, seen, out =>
    if (pyStrip s).length < 40 then ebSents n rest seen out
    else if sentKey (pyStrip s) ∈ seen then ebSents n rest seen out
    else if n ≤ out.length + 1 then (sentKey (pyStrip s) :: seen, out ++ [pyStrip s], true)
    else ebSents n rest (sentKey (pyStrip s) :: seen) (out ++ [pyStrip s])

/-- Outer chunk loop of `utils.extractive_bullets`. -/
def ebChunks (n : Nat) : List Chunk → List (List Char) → List (List Char) → List (List Char)
  | [], _, out => out
  | c :: rest, seen, out =>
    match ebSents n (sentenceSplit c.text.toList) seen out with
    | (_, out', true) => out'
    | (seen', out', false) => ebChunks n rest seen' out'

/-- Python `utils.extractive_bullets`. -/
def extractive_bullets (chunks : List Chunk) (bullets : Nat) : List (List Char) :=
  ebChunks bullets chunks [] []

end Utils

namespace App

/-- Sentence-collecting loop of `app.make_bullets` (the non-fallback branch):
first `n` distinct qualifying sentences. -/
def mbGo (n : Nat) : List (List Char) → List (List Char) → List (List Char)
  | [], out => out
  | s :: rest, out =>
    if n ≤ out.length then out
    else if s ∈ out then mbGo n rest out
    else mbGo n rest (out ++ [s])

/-- Python `app.make_bullets`. -/
def make_bullets (text : List Char) (n : Nat) : List (List Char) :=
  if pyStrip text = [] then []
  else
    let t := collapseWs (pyStrip text)
    let sents := ((sentenceSplit t).map pyStrip).filter fun s => 35 ≤ s.length
    if sents = [] then [pyStrip (t.take 180) ++ (if 180 < t.length then ['…'] else [])]
    else (mbGo n sents []).take n

/-- External mood classifier contract: per-class probabilities for a text plus
the class labels, as exposed by the loaded scikit-learn pipeline. -/
structure MoodModel where
  predict_proba : List Char → List ℚ
  classes : List String

/-- Index of the first maximum, the value of `numpy.argmax`; `none` on the
empty list (where numpy raises, and `app.predict_mood_from_text` catches). -/
def argmaxIdx : List ℚ → Option Nat
  | [] => none
  | x :: xs =>
    match argmaxIdx xs with
    | none => some 0
    | some j => if x < (x :: xs).getD (j + 1) 0 then some (j + 1) else some 0

/-- Python `app.predict_mood_from_text`: `None` when no model is loaded or the
text strips to empty; exceptions inside the `try` (empty probability row,
label index out of range) also yield `None`. -/
def predict_mood_from_text (model : Option MoodModel) (text : List Char) :
    Option (String × ℚ) :=
  match model with
  | none => none
  | some m =>
    if pyStrip text = [] then none
    else
      let proba := m.predict_proba (pyStrip text)
      match argmaxIdx proba with
      | none => none
      | some idx =>
        match m.classes.get? idx with
        | none => none
        | some label => some (label, proba.getD idx 0)

end App

theorem idxLe_of_not_idxLe {xs : List ℚ} {i j : Nat} (h : ¬ idxLe xs i j) : idxLe xs j i := by
  unfold idxLe at h ⊢
  push_neg at h
  rcases lt_trichotomy (xs.getD i 0) (xs.getD j 0) with hlt | heq | hgt
  · exact absurd hlt (not_lt.mpr h.1)
  · exact Or.inr ⟨heq.symm, Nat.le_of_lt (h.2 heq)⟩
  · exact Or.inl hgt

theorem idxLe_trans {xs : List ℚ} {i j k : Nat} (h1 : idxLe xs i j) (h2 : idxLe xs j k) :
    idxLe xs i k := by
  unfold idxLe at h1 h2 ⊢
  rcases h1 with h1 | ⟨h1e, h1i⟩
  · rcases h2 with h2 | ⟨h2e, _⟩
    · exact Or.inl (h1.trans h2)
    · exact Or.inl (h2e ▸ h1)
  · rcases h2 with h2 | ⟨h2e, h2i⟩
    · exact Or.inl (h1e ▸ h2)
    · exact Or.inr ⟨h1e.trans h2e, h1i.trans h2i⟩

theorem sortInsert_perm (xs : List ℚ) (i : Nat) :
    ∀ l : List Nat, List.Perm (sortInsert xs i l) (i :: l) := by
  intro l
  induction l with
  | nil => exact List.Perm.refl _
  | cons j rest ih =>
    by_cases h : idxLe xs i j
    · simp only [sortInsert, if_pos h]
      exact List.Perm.refl _
    · simp only [sortInsert, if_neg h]
      exact (ih.cons j).trans (List.Perm.swap i j rest)

theorem mem_sortInsert {xs : List ℚ} {i a : Nat} {l : List Nat}
    (h : a ∈ sortInsert xs i l) : a = i ∨ a ∈ l := by
  have := (sortInsert_perm xs i l).mem_iff.mp h
  simpa using this

theorem sortInsert_pairwise {xs : List ℚ} {i : Nat} {l : List Nat}
    (h : l.Pairwise (idxLe xs)) : (sortInsert xs i l).Pairwise (idxLe xs) := by
  induction l with
  | nil => simp [sortInsert]
  | cons j rest ih =>
    rcases List.pairwise_cons.mp h with ⟨hj, hrest⟩
    by_cases hij : idxLe xs i j
    · simp only [sortInsert, if_pos hij]
      refine List.pairwise_cons.mpr ⟨?_, h⟩
      intro b hb
      rcases List.mem_cons.mp hb with rfl | hb
      · exact hij
      · exact idxLe_trans hij (hj b hb)
    · simp only [sortInsert, if_neg hij]
      refine List.pairwise_cons.mpr ⟨?_, ih hrest⟩
      intro b hb
      rcases mem_sortInsert hb with rfl | hb
      · exact idxLe_of_not_idxLe hij
      · exact hj b hb

theorem argsortAsc_perm (xs : List ℚ) : List.Perm (argsortAsc xs) (List.range xs.length) := by
  unfold argsortAsc
  generalize List.range xs.length = l
  induction l with
  | nil => exact List.Perm.refl _
  | cons a l ih =>
    exact (sortInsert_perm xs a _).trans (ih.cons a)

theorem argsortAsc_pairwise (xs : List ℚ) : (argsortAsc xs).Pairwise (idxLe xs) := by
  unfold argsortAsc
  generalize List.range xs.length = l
  induction l with
  | nil => simp
  | cons a l ih => exact sortInsert_pairwise ih

theorem argsortAsc_length (xs : List ℚ) : (argsortAsc xs).length = xs.length := by
  simpa using (argsortAsc_perm xs).length_eq

theorem argsortAsc_nodup (xs : List ℚ) : (argsortAsc xs).Nodup :=
  ((argsortAsc_perm xs).symm).nodup (List.nodup_range xs.length)

theorem mem_argsortAsc_lt {xs : List ℚ} {i : Nat} (h : i ∈ argsortAsc xs) : i < xs.length :=
  List.mem_range.mp ((argsortAsc_perm xs).mem_iff.mp h)

theorem search_length (sim : String → String → ℚ) (chunks : List Chunk) (query : String)
    (k : Nat) (hne : chunks ≠ []) :
    (Utils.Retriever.search sim chunks query k).length = min k chunks.length := by
  unfold Utils.Retriever.search
  rw [if_neg hne]
  by_cases hlow : npMax (Utils.simsOf sim chunks query) < mkRat 1 1000000
  · rw [if_pos hlow]
    simp [List.length_take]
  · rw [if_neg hlow]
    have hlen : (Utils.simsOf sim chunks query).length = chunks.length := by
      simp [Utils.simsOf]
    simp [Utils.searchIdxs, List.length_take, argsortAsc_length, hlen]

/-- C1: when every similarity is below the `1e-6` threshold,
`utils.Retriever.search` abandons ranking by score and returns the first
`min(k, corpus size)` chunks in original corpus order, each scored `0.0`. -/
theorem claim_C1 (sim : String → String → ℚ) (chunks : List Chunk) (query : String) (k : Nat)
    (hne : chunks ≠ []) (hlow : npMax (Utils.simsOf sim chunks query) < mkRat 1 1000000) :
    Utils.Retriever.search sim chunks query k = (chunks.take k).map (fun c => ((0 : ℚ), c)) ∧
    (Utils.Retriever.search sim chunks query k).length = min k chunks.length := by
  refine ⟨?_, search_length sim chunks query k hne⟩
  unfold Utils.Retriever.search
  rw [if_neg hne, if_pos hlow]

/-- Witness for C1: a two-chunk corpus whose similarities are all zero. -/
theorem claim_C1_witness :
    ([(⟨"a", "b", "cat"⟩ : Chunk), ⟨"c", "d", "dog"⟩] ≠ []) ∧
    npMax (Utils.simsOf (fun _ _ => 0) [⟨"a", "b", "cat"⟩, ⟨"c", "d", "dog"⟩] "query") <
      mkRat 1 1000000 ∧
    Utils.Retriever.search (fun _ _ => 0) [⟨"a", "b", "cat"⟩, ⟨"c", "d", "dog"⟩] "query" 5 =
      [((0 : ℚ), ⟨"a", "b", "cat"⟩), ((0 : ℚ), ⟨"c", "d", "dog"⟩)] := by
  refine ⟨by decide, by decide, ?_⟩
  have h := claim_C1 (fun _ _ => 0) [⟨"a", "b", "cat"⟩, ⟨"c", "d", "dog"⟩] "query" 5
    (by decide) (by decide)
  rw [h.1]
  decide

/-- C5: on a non-empty corpus a blank (empty or whitespace-only) query is
replaced by the placeholder `"summary"`, and the search still returns
`min(k, corpus size)` results. -/
theorem claim_C5 (sim : String → String → ℚ) (chunks : List Chunk) (query : String) (k : Nat)
    (hne : chunks ≠ []) (hblank : pyStrip query.toList = []) :
    Utils.Retriever.search sim chunks query k = Utils.Retriever.search sim chunks "summary" k ∧
    (Utils.Retriever.search sim chunks query k).length = min k chunks.length := by
  have hs : Utils.simsOf sim chunks query = Utils.simsOf sim chunks "summary" := by
    unfold Utils.simsOf
    rw [if_pos hblank, if_neg (by decide)]
  refine ⟨?_, search_length sim chunks query k hne⟩
  unfold Utils.Retriever.search
  rw [hs]

/-- Witness for C5: a whitespace-only query over a one-chunk corpus. -/
theorem claim_C5_witness :
    ([(⟨"a", "b", "cat"⟩ : Chunk)] ≠ []) ∧
    pyStrip (String.toList "   ") = [] ∧
    Utils.Retriever.search (fun _ _ => 1) [⟨"a", "b", "cat"⟩] "   " 3 =
      Utils.Retriever.search (fun _ _ => 1) [⟨"a", "b", "cat"⟩] "summary" 3 ∧
    (Utils.Retriever.search (fun _ _ => 1) [⟨"a", "b", "cat"⟩] "   " 3).length =
      min 3 [(⟨"a", "b", "cat"⟩ : Chunk)].length := by
  have h := claim_C5 (fun _ _ => 1) [⟨"a", "b", "cat"⟩] "   " 3 (by decide) (by decide)
  exact ⟨by decide, by decide, h.1, h.2⟩

/-- C6: both rankers return the empty list on an empty corpus, for every
query and every `k`, without any error path. -/
theorem claim_C6 :
    (∀ (sim : String → String → ℚ) (query : String) (k : Nat),
      Utils.Retriever.search sim [] query k = []) ∧
    (∀ (score : String → String → ℚ) (question : String) (k : Nat),
      Retrieval.top_k_passages score question [] k = []) := by
  constructor
  · intro sim query k
    rfl
  · intro score question k
    rfl

theorem getD_map_neg (scores : List ℚ) (i : Nat) (h : i < scores.length) :
    (scores.map fun x => -x).getD i 0 = -(scores.getD i 0) := by
  rw [List.getD_eq_getElem _ _ (by simpa using h), List.getD_eq_getElem _ _ h, List.getElem_map]

/-- C3 counterexample: two chunks with equal similarity come back in reverse
corpus order from `utils.Retriever.search`, because the ascending `argsort`
(stable, ties by index) is reversed wholesale by `[::-1]`. The two texts have
the same bag of words, so the real TF-IDF scores them identically. -/
theorem claim_C3_counterexample :
    Utils.Retriever.search (fun _ _ => 1) [⟨"t", "u", "cat sat"⟩, ⟨"t", "u", "sat cat"⟩] "cat" 2 =
      [((1 : ℚ), ⟨"t", "u", "sat cat"⟩), ((1 : ℚ), ⟨"t", "u", "cat sat"⟩)] ∧
    ((⟨"t", "u", "cat sat"⟩ : Chunk) ≠ ⟨"t", "u", "sat cat"⟩) := by
  decide

/-- C3 amended: on the scored path both rankers order strictly descending by
similarity, but ties behave differently: `retrieval.top_k_passages`
(`argsort(-scores)`) keeps equal-score passages in original corpus order,
while `utils.Retriever.search` (`argsort()[::-1]`) returns equal-score chunks
in reverse corpus order. Both are deterministic. -/
theorem claim_C3_amended (sim score : String → String → ℚ) (chunks : List Chunk)
    (passages : List String) (query question : String) (k : Nat)
    (hne : chunks ≠ [])
    (hsig : ¬ npMax (Utils.simsOf sim chunks query) < mkRat 1 1000000) :
    Utils.Retriever.search sim chunks query k =
      (Utils.searchIdxs (Utils.simsOf sim chunks query) k).map
        (fun i => ((Utils.simsOf sim chunks query).getD i 0, chunks.getD i ⟨"", "", ""⟩)) ∧
    (Utils.searchIdxs (Utils.simsOf sim chunks query) k).Pairwise
      (fun i j =>
        (Utils.simsOf sim chunks query).getD j 0 < (Utils.simsOf sim chunks query).getD i 0 ∨
          ((Utils.simsOf sim chunks query).getD i 0 = (Utils.simsOf sim chunks query).getD j 0 ∧
            j < i)) ∧
    (Retrieval.topKIdxs (passages.map (score question)) k).Pairwise
      (fun i j =>
        (passages.map (score question)).getD j 0 < (passages.map (score question)).getD i 0 ∨
          ((passages.map (score question)).getD i 0 = (passages.map (score question)).getD j 0 ∧
            i < j)) := by
  refine ⟨?_, ?_, ?_⟩
  · unfold Utils.Retriever.search
    rw [if_neg hne, if_neg hsig]
  · set sims := Utils.simsOf sim chunks query with hsims
    have hrev : (argsortAsc sims).reverse.Pairwise (fun i j => idxLe sims j i) :=
      List.pairwise_reverse.mpr (argsortAsc_pairwise sims)
    have hnd : (argsortAsc sims).reverse.Nodup := List.nodup_reverse.mpr (argsortAsc_nodup sims)
    have htake := List.Pairwise.and
      (List.Pairwise.sublist (List.take_sublist k _) hrev)
      (List.Pairwise.sublist (List.take_sublist k _) hnd)
    refine htake.imp ?_
    intro i j hij
    rcases hij.1 with hlt | ⟨heq, hle⟩
    · exact Or.inl hlt
    · exact Or.inr ⟨heq.symm, Nat.lt_of_le_of_ne hle (fun h => hij.2 h.symm)⟩
  · set scores := passages.map (score question) with hscores
    set ys := scores.map (fun x => -x) with hys
    have hpw : (argsortAsc ys).Pairwise (idxLe ys) := argsortAsc_pairwise ys
    have hnd : (argsortAsc ys).Nodup := argsortAsc_nodup ys
    have hmem : ∀ {i : Nat}, i ∈ (argsortAsc ys).take k → i < scores.length := by
      intro i hi
      have := mem_argsortAsc_lt ((List.take_sublist k _).subset hi)
      simpa [hys] using this
    have htake := List.Pairwise.and
      (List.Pairwise.sublist (List.take_sublist k _) hpw)
      (List.Pairwise.sublist (List.take_sublist k _) hnd)
    unfold Retrieval.topKIdxs
    refine htake.imp_of_mem ?_
    intro i j hi hj hij
    have hi' : i < scores.length := hmem hi
    have hj' : j < scores.length := hmem hj
    rcases hij.1 with hlt | ⟨heq, hle⟩
    · rw [getD_map_neg scores i hi', getD_map_neg scores j hj', neg_lt_neg_iff] at hlt
      exact Or.inl hlt
    · rw [getD_map_neg scores i hi', getD_map_neg scores j hj', neg_inj] at heq
      exact Or.inr ⟨heq, Nat.lt_of_le_of_ne hle hij.2⟩

/-- Witness for C3 amended: distinct similarities on a two-chunk corpus, on the
scored (non-fallback) path. -/
theorem claim_C3_amended_witness :
    ([(⟨"a", "b", "dog"⟩ : Chunk), ⟨"c", "d", "cat"⟩] ≠ []) ∧
    ¬ npMax (Utils.simsOf (fun _ t => if t = "cat" then 2 else 1)
        [⟨"a", "b", "dog"⟩, ⟨"c", "d", "cat"⟩] "cat") < mkRat 1 1000000 ∧
    Utils.Retriever.search (fun _ t => if t = "cat" then 2 else 1)
        [⟨"a", "b", "dog"⟩, ⟨"c", "d", "cat"⟩] "cat" 2 =
      (Utils.searchIdxs (Utils.simsOf (fun _ t => if t = "cat" then 2 else 1)
          [⟨"a", "b", "dog"⟩, ⟨"c", "d", "cat"⟩] "cat") 2).map
        (fun i => ((Utils.simsOf (fun _ t => if t = "cat" then 2 else 1)
            [⟨"a", "b", "dog"⟩, ⟨"c", "d", "cat"⟩] "cat").getD i 0,
          ([(⟨"a", "b", "dog"⟩ : Chunk), ⟨"c", "d", "cat"⟩]).getD i ⟨"", "", ""⟩)) := by
  have h := claim_C3_amended (fun _ t => if t = "cat" then 2 else 1)
    (fun _ t => if t = "cat" then 2 else 1) [⟨"a", "b", "dog"⟩, ⟨"c", "d", "cat"⟩]
    ["dog", "cat"] "cat" "cat" 2 (by decide) (by decide)
  exact ⟨by decide, by decide, h.1⟩

theorem chunk_count_step {m step : Nat} (hm : 1 ≤ m) (hstep : 1 ≤ step) :
    (m + step - 1) / step = (m - step + step - 1) / step + 1 := by
  rcases le_or_lt step m with h | h
  · have he : m + step - 1 = (m - step + step - 1) + step := by omega
    rw [he, Nat.add_div_right _ hstep]
  · have h0 : m - step = 0 := by omega
    have he : m + step - 1 = (m - 1) + step := by omega
    rw [h0, he, Nat.add_div_right _ hstep, Nat.div_eq_of_lt (by omega : m - 1 < step),
      Nat.div_eq_of_lt (by omega : 0 + step - 1 < step)]

theorem chunkTextAux_eq_walk (t : List Char) (c o : Nat) (hco : o < c) :
    ∀ fuel i, t.length - i ≤ fuel →
      Retrieval.chunkTextAux t c o fuel i =
        (List.range' i ((t.length - i + (c - o) - 1) / (c - o)) (c - o)).filterMap
          (fun s =>
            let w := pyStrip ((t.drop s).take c)
            if w = [] then none else some w) := by
  have hstep : 1 ≤ c - o := by omega
  have hmax : max 1 (c - o) = c - o := Nat.max_eq_right hstep
  intro fuel
  induction fuel with
  | zero =>
    intro i hi
    have h0 : t.length - i = 0 := Nat.le_zero.mp hi
    rw [Retrieval.chunkTextAux, h0, Nat.zero_add, Nat.div_eq_of_lt (by omega)]
    rfl
  | succ fuel ih =>
    intro i hi
    by_cases hlt : i < t.length
    · have hm : 1 ≤ t.length - i := by omega
      have hcount : (t.length - i + (c - o) - 1) / (c - o) =
          (t.length - (i + (c - o)) + (c - o) - 1) / (c - o) + 1 := by
        rw [Nat.sub_add_eq t.length i (c - o)]
        exact chunk_count_step hm hstep
      rw [Retrieval.chunkTextAux, if_pos hlt, hmax, hcount, List.range'_succ,
        List.filterMap_cons, ih (i + (c - o)) (by omega)]
      by_cases hw : pyStrip ((t.drop i).take c) = []
      · simp only [hw, if_pos rfl]
        rfl
      · simp only [if_neg hw]
        rfl
    · have h0 : t.length - i = 0 := by omega
      rw [Retrieval.chunkTextAux, if_neg hlt, h0, Nat.zero_add, Nat.div_eq_of_lt (by omega)]
      rfl

/-- C2 counterexample: the `utils.chunk_text` variant stops as soon as a window
reaches the end of the text, so on the spec scenario it produces only the
windows at offsets 0, 3, 6 and never the final `"j"` fragment claimed for
`chunk_text("abcdefghij", chunk_chars=4, overlap=1)`. -/
theorem claim_C2_counterexample :
    Utils.chunk_text (String.toList "abcdefghij") 4 1 11 =
      some [String.toList "abcd", String.toList "defg", String.toList "ghij"] ∧
    Utils.chunk_text (String.toList "abcdefghij") 4 1 11 ≠
      some [String.toList "abcd", String.toList "defg", String.toList "ghij",
        String.toList "j"] := by
  decide

/-- C2 amended: `retrieval.chunk_text` (not `utils.chunk_text`) walks the
normalized text with windows of length `chunk_chars` starting at the multiples
of `chunk_chars - overlap` below the text length, emits each trimmed window
once non-empty (the final one possibly shorter), and on the spec scenario
returns exactly `["abcd", "defg", "ghij", "j"]` (starts 0, 3, 6, 9). -/
theorem claim_C2_amended (text : List Char) (chunk_chars overlap : Nat)
    (hco : overlap < chunk_chars) :
    Retrieval.chunk_text text chunk_chars overlap =
      Retrieval.specChunkWalk (pyStrip (collapseWs text)) chunk_chars
        (chunk_chars - overlap) ∧
    Retrieval.chunk_text (String.toList "abcdefghij") 4 1 =
      [String.toList "abcd", String.toList "defg", String.toList "ghij",
        String.toList "j"] := by
  constructor
  · unfold Retrieval.chunk_text Retrieval.specChunkWalk
    by_cases ht : pyStrip (collapseWs text) = []
    · rw [if_pos ht, ht]
      simp [Nat.div_eq_of_lt (by omega : (chunk_chars - overlap) - 1 < chunk_chars - overlap)]
    · rw [if_neg ht,
        chunkTextAux_eq_walk (pyStrip (collapseWs text)) chunk_chars overlap hco
          (pyStrip (collapseWs text)).length 0 (by omega), Nat.sub_zero]
  · decide

/-- Witness for C2 amended: the spec scenario itself. -/
theorem claim_C2_amended_witness :
    1 < 4 ∧
    (Retrieval.chunk_text (String.toList "abcdefghij") 4 1 =
      Retrieval.specChunkWalk (pyStrip (collapseWs (String.toList "abcdefghij"))) 4 3 ∧
    Retrieval.chunk_text (String.toList "abcdefghij") 4 1 =
      [String.toList "abcd", String.toList "defg", String.toList "ghij",
        String.toList "j"]) :=
  ⟨by decide, claim_C2_amended (String.toList "abcdefghij") 4 1 (by decide)⟩

/-- C4: with `chunk_chars = 2, overlap = 2` on the text `"abc"`, the
`utils.chunk_text` loop never terminates: after emitting `text[0:2]` it resets
`i = max(0, 2 - 2) = 0` and repeats forever. No amount of fuel produces a
result, which is the fuel embedding of divergence. (`retrieval.chunk_text`, by
contrast, clamps its advance to `max(1, chunk_chars - overlap)`.) -/
theorem claim_C4 : ∀ fuel : Nat, Utils.chunk_text (String.toList "abc") 2 2 fuel = none := by
  intro fuel
  have hstrip : pyStrip (String.toList "abc") = ['a', 'b', 'c'] := by decide
  unfold Utils.chunk_text
  rw [hstrip, if_neg (by decide)]
  induction fuel with
  | zero => rfl
  | succ fuel ih => simp [Utils.chunkTextFuel, ih]

theorem argmaxIdx_lt_length : ∀ {l : List ℚ} {j : Nat}, App.argmaxIdx l = some j → j < l.length := by
  intro l
  induction l with
  | nil =>
    intro j h
    simp [App.argmaxIdx] at h
  | cons x xs ih =>
    intro j h
    rw [App.argmaxIdx] at h
    rcases hx : App.argmaxIdx xs with _ | j'
    · rw [hx] at h
      cases Option.some.inj h
      simp
    · rw [hx] at h
      dsimp only at h
      by_cases hc : x < (x :: xs).getD (j' + 1) 0
      · rw [if_pos hc] at h
        cases Option.some.inj h
        have := ih hx
        simpa using Nat.succ_lt_succ this
      · rw [if_neg hc] at h
        cases Option.some.inj h
        simp

/-- C9: `app.predict_mood_from_text` returns `none` when no model is loaded or
the text strips to blank, and whenever it does produce `(label, confidence)`
with the loaded model emitting genuine probabilities (all in `[0, 1]`), the
confidence lies in `[0, 1]`. The embedding is total, so no exception escapes. -/
theorem claim_C9 (m : App.MoodModel) (text : List Char)
    (hp : ∀ p ∈ m.predict_proba (pyStrip text), 0 ≤ p ∧ p ≤ 1) :
    App.predict_mood_from_text none text = none ∧
    (pyStrip text = [] → App.predict_mood_from_text (some m) text = none) ∧
    (∀ label conf, App.predict_mood_from_text (some m) text = some (label, conf) →
      0 ≤ conf ∧ conf ≤ 1) := by
  refine ⟨rfl, ?_, ?_⟩
  · intro hblank
    unfold App.predict_mood_from_text
    dsimp only
    rw [if_pos hblank]
  · intro label conf h
    unfold App.predict_mood_from_text at h
    dsimp only at h
    by_cases hblank : pyStrip text = []
    · rw [if_pos hblank] at h
      exact absurd h (by simp)
    · rw [if_neg hblank] at h
      rcases hidx : App.argmaxIdx (m.predict_proba (pyStrip text)) with _ | idx
      · rw [hidx] at h
        exact absurd h (by simp)
      · rw [hidx] at h
        dsimp only at h
        rcases hcls : m.classes.get? idx with _ | l
        · rw [hcls] at h
          exact absurd h (by simp)
        · rw [hcls] at h
          dsimp only at h
          have h2 := Option.some.inj h
          have hconf : (m.predict_proba (pyStrip text)).getD idx 0 = conf :=
            congrArg Prod.snd h2
          have hlt : idx < (m.predict_proba (pyStrip text)).length :=
            argmaxIdx_lt_length hidx
          have hmem : (m.predict_proba (pyStrip text)).getD idx 0 ∈
              m.predict_proba (pyStrip text) := by
            rw [List.getD_eq_getElem _ _ hlt]
            exact List.getElem_mem hlt
          rw [← hconf]
          exact hp _ hmem

/-- Witness for C9: a concrete two-class model with uniform probabilities. -/
theorem claim_C9_witness :
    (∀ p ∈ (App.MoodModel.mk (fun _ => [(1 : ℚ), 1]) ["Dark", "Funny"]).predict_proba
        (pyStrip (String.toList "fun movie")), 0 ≤ p ∧ p ≤ 1) ∧
    App.predict_mood_from_text none (String.toList "fun movie") = none ∧
    (pyStrip (String.toList "fun movie") = [] →
      App.predict_mood_from_text
        (some (App.MoodModel.mk (fun _ => [(1 : ℚ), 1]) ["Dark", "Funny"]))
        (String.toList "fun movie") = none) ∧
    (∀ label conf,
      App.predict_mood_from_text
          (some (App.MoodModel.mk (fun _ => [(1 : ℚ), 1]) ["Dark", "Funny"]))
          (String.toList "fun movie") = some (label, conf) →
      0 ≤ conf ∧ conf ≤ 1) := by
  have h := claim_C9 (App.MoodModel.mk (fun _ => [(1 : ℚ), 1]) ["Dark", "Funny"])
    (String.toList "fun movie") (by decide)
  exact ⟨by decide, h.1, h.2.1, h.2.2⟩

theorem bsGo_length {n : Nat} :
    ∀ (sents : List (List Char)) (out : List (List Char)), out.length < n →
      (Retrieval.bsGo n sents out).length ≤ n := by
  intro sents
  induction sents with
  | nil =>
    intro out hout
    exact le_of_lt hout
  | cons s rest ih =>
    intro out hout
    rw [Retrieval.bsGo]
    by_cases hq : pyStrip s ≠ [] ∧ 30 < (pyStrip s).length
    · rw [if_pos hq]
      by_cases hfull : n ≤ (out ++ [pyStrip s]).length
      · rw [if_pos hfull]
        simpa using hout
      · rw [if_neg hfull]
        exact ih _ (by omega)
    · rw [if_neg hq]
      by_cases hfull : n ≤ out.length
      · omega
      · rw [if_neg hfull]
        exact ih _ (by omega)

theorem bsGo_mem {n : Nat} :
    ∀ (sents : List (List Char)) (out : List (List Char)) (x : List Char),
      x ∈ Retrieval.bsGo n sents out →
      x ∈ out ∨ ∃ s0 ∈ sents, x = pyStrip s0 := by
  intro sents
  induction sents with
  | nil =>
    intro out x hx
    exact Or.inl hx
  | cons s rest ih =>
    intro out x hx
    rw [Retrieval.bsGo] at hx
    by_cases hq : pyStrip s ≠ [] ∧ 30 < (pyStrip s).length
    · rw [if_pos hq] at hx
      by_cases hfull : n ≤ (out ++ [pyStrip s]).length
      · rw [if_pos hfull] at hx
        rcases List.mem_append.mp hx with hx | hx
        · exact Or.inl hx
        · exact Or.inr ⟨s, List.mem_cons_self s rest, (List.mem_singleton.mp hx)⟩
      · rw [if_neg hfull] at hx
        rcases ih _ x hx with hx | ⟨s0, hs0, hxs⟩
        · rcases List.mem_append.mp hx with hx | hx
          · exact Or.inl hx
          · exact Or.inr ⟨s, List.mem_cons_self s rest, (List.mem_singleton.mp hx)⟩
        · exact Or.inr ⟨s0, List.mem_cons_of_mem s hs0, hxs⟩
    · rw [if_neg hq] at hx
      by_cases hfull : n ≤ out.length
      · rw [if_pos hfull] at hx
        exact Or.inl hx
      · rw [if_neg hfull] at hx
        rcases ih _ x hx with hx | ⟨s0, hs0, hxs⟩
        · exact Or.inl hx
        · exact Or.inr ⟨s0, List.mem_cons_of_mem s hs0, hxs⟩

theorem ebSents_seen_mono {n : Nat} :
    ∀ (sents seen out : List (List Char)) (x : List Char), x ∈ seen →
      x ∈ (Utils.ebSents n sents seen out).1 := by
  intro sents
  induction sents with
  | nil =>
    intro seen out x hx
    exact hx
  | cons s rest ih =>
    intro seen out x hx
    rw [Utils.ebSents]
    by_cases h40 : (pyStrip s).length < 40
    · rw [if_pos h40]
      exact ih seen out x hx
    · rw [if_neg h40]
      by_cases hseen : sentKey (pyStrip s) ∈ seen
      · rw [if_pos hseen]
        exact ih seen out x hx
      · rw [if_neg hseen]
        by_cases hfull : n ≤ out.length + 1
        · rw [if_pos hfull]
          exact List.mem_cons_of_mem _ hx
        · rw [if_neg hfull]
          exact ih _ _ x (List.mem_cons_of_mem _ hx)

theorem ebSents_inv {n : Nat} :
    ∀ (sents seen out : List (List Char)),
      (∀ s ∈ out, sentKey s ∈ seen) →
      out.Pairwise (fun a b => sentKey a ≠ sentKey b) →
      (∀ s ∈ (Utils.ebSents n sents seen out).2.1,
        sentKey s ∈ (Utils.ebSents n sents seen out).1) ∧
      (Utils.ebSents n sents seen out).2.1.Pairwise (fun a b => sentKey a ≠ sentKey b) := by
  intro sents
  induction sents with
  | nil =>
    intro seen out hkeys hpw
    exact ⟨hkeys, hpw⟩
  | cons s rest ih =>
    intro seen out hkeys hpw
    rw [Utils.ebSents]
    by_cases h40 : (pyStrip s).length < 40
    · rw [if_pos h40]
      exact ih seen out hkeys hpw
    · rw [if_neg h40]
      by_cases hseen : sentKey (pyStrip s) ∈ seen
      · rw [if_pos hseen]
        exact ih seen out hkeys hpw
      · rw [if_neg hseen]
        have hpw' : (out ++ [pyStrip s]).Pairwise (fun a b => sentKey a ≠ sentKey b) := by
          rw [List.pairwise_append]
          refine ⟨hpw, List.pairwise_singleton _ _, ?_⟩
          intro a ha b hb
          rw [List.mem_singleton.mp hb]
          intro hab
          exact hseen (hab ▸ hkeys a ha)
        have hkeys' : ∀ x ∈ out ++ [pyStrip s], sentKey x ∈ sentKey (pyStrip s) :: seen := by
          intro x hx
          rcases List.mem_append.mp hx with hx | hx
          · exact List.mem_cons_of_mem _ (hkeys x hx)
          · rw [List.mem_singleton.mp hx]
            exact List.mem_cons_self _ _
        by_cases hfull : n ≤ out.length + 1
        · rw [if_pos hfull]
          exact ⟨hkeys', hpw'⟩
        · rw [if_neg hfull]
          exact ih _ _ hkeys' hpw'

theorem ebSents_mem {n : Nat} :
    ∀ (sents seen out : List (List Char)) (x : List Char),
      x ∈ (Utils.ebSents n sents seen out).2.1 →
      x ∈ out ∨ ∃ s0 ∈ sents, x = pyStrip s0 := by
  intro sents
  induction sents with
  | nil =>
    intro seen out x hx
    exact Or.inl hx
  | cons s rest ih =>
    intro seen out x hx
    rw [Utils.ebSents] at hx
    by_cases h40 : (pyStrip s).length < 40
    · rw [if_pos h40] at hx
      rcases ih _ _ x hx with hx | ⟨s0, hs0, hxs⟩
      · exact Or.inl hx
      · exact Or.inr ⟨s0, List.mem_cons_of_mem s hs0, hxs⟩
    · rw [if_neg h40] at hx
      by_cases hseen : sentKey (pyStrip s) ∈ seen
      · rw [if_pos hseen] at hx
        rcases ih _ _ x hx with hx | ⟨s0, hs0, hxs⟩
        · exact Or.inl hx
        · exact Or.inr ⟨s0, List.mem_cons_of_mem s hs0, hxs⟩
      · rw [if_neg hseen] at hx
        by_cases hfull : n ≤ out.length + 1
        · rw [if_pos hfull] at hx
          rcases List.mem_append.mp hx with hx | hx
          · exact Or.inl hx
          · exact Or.inr ⟨s, List.mem_cons_self s rest, List.mem_singleton.mp hx⟩
        · rw [if_neg hfull] at hx
          rcases ih _ _ x hx with hx | ⟨s0, hs0, hxs⟩
          · rcases List.mem_append.mp hx with hx | hx
            · exact Or.inl hx
            · exact Or.inr ⟨s, List.mem_cons_self s rest, List.mem_singleton.mp hx⟩
          · exact Or.inr ⟨s0, List.mem_cons_of_mem s hs0, hxs⟩

theorem ebSents_length {n : Nat} :
    ∀ (sents seen out : List (List Char)), out.length < n →
      (Utils.ebSents n sents seen out).2.1.length ≤ n ∧
      ((Utils.ebSents n sents seen out).2.2 = false →
        (Utils.ebSents n sents seen out).2.1.length < n) := by
  intro sents
  induction sents with
  | nil =>
    intro seen out hout
    exact ⟨le_of_lt hout, fun _ => hout⟩
  | cons s rest ih =>
    intro seen out hout
    rw [Utils.ebSents]
    by_cases h40 : (pyStrip s).length < 40
    · rw [if_pos h40]
      exact ih seen out hout
    · rw [if_neg h40]
      by_cases hseen : sentKey (pyStrip s) ∈ seen
      · rw [if_pos hseen]
        exact ih seen out hout
      · rw [if_neg hseen]
        by_cases hfull : n ≤ out.length + 1
        · rw [if_pos hfull]
          constructor
          · simpa using hout
          · intro hfalse
            cases hfalse
        · rw [if_neg hfull]
          exact ih _ _ (by simp; omega)

theorem ebChunks_pairwise {n : Nat} :
    ∀ (chunks : List Chunk) (seen out : List (List Char)),
      (∀ s ∈ out, sentKey s ∈ seen) →
      out.Pairwise (fun a b => sentKey a ≠ sentKey b) →
      (Utils.ebChunks n chunks seen out).Pairwise (fun a b => sentKey a ≠ sentKey b) := by
  intro chunks
  induction chunks with
  | nil =>
    intro seen out _ hpw
    exact hpw
  | cons c rest ih =>
    intro seen out hkeys hpw
    rw [Utils.ebChunks]
    have hinv := ebSents_inv (n := n) (sentenceSplit c.text.toList) seen out hkeys hpw
    rcases h : Utils.ebSents n (sentenceSplit c.text.toList) seen out with ⟨seen', out', d⟩
    rw [h] at hinv
    dsimp only at hinv ⊢
    cases d with
    | true => exact hinv.2
    | false => exact ih seen' out' hinv.1 hinv.2

theorem ebChunks_mem {n : Nat} :
    ∀ (chunks : List Chunk) (seen out : List (List Char)) (x : List Char),
      x ∈ Utils.ebChunks n chunks seen out →
      x ∈ out ∨ ∃ c ∈ chunks, ∃ s0 ∈ sentenceSplit c.text.toList, x = pyStrip s0 := by
  intro chunks
  induction chunks with
  | nil =>
    intro seen out x hx
    exact Or.inl hx
  | cons c rest ih =>
    intro seen out x hx
    rw [Utils.ebChunks] at hx
    have hmem := ebSents_mem (n := n) (sentenceSplit c.text.toList) seen out x
    rcases h : Utils.ebSents n (sentenceSplit c.text.toList) seen out with ⟨seen', out', d⟩
    rw [h] at hx hmem
    dsimp only at hx hmem
    cases d with
    | true =>
      rcases hmem hx with hx' | ⟨s0, hs0, hxs⟩
      · exact Or.inl hx'
      · exact Or.inr ⟨c, List.mem_cons_self c rest, s0, hs0, hxs⟩
    | false =>
      rcases ih seen' out' x hx with hx' | ⟨c', hc', s0, hs0, hxs⟩
      · rcases hmem hx' with hx'' | ⟨s0, hs0, hxs⟩
        · exact Or.inl hx''
        · exact Or.inr ⟨c, List.mem_cons_self c rest, s0, hs0, hxs⟩
      · exact Or.inr ⟨c', List.mem_cons_of_mem c hc', s0, hs0, hxs⟩

theorem ebChunks_length {n : Nat} :
    ∀ (chunks : List Chunk) (seen out : List (List Char)), out.length < n →
      (Utils.ebChunks n chunks seen out).length ≤ n := by
  intro chunks
  induction chunks with
  | nil =>
    intro seen out hout
    exact le_of_lt hout
  | cons c rest ih =>
    intro seen out hout
    rw [Utils.ebChunks]
    have hlen := ebSents_length (n := n) (sentenceSplit c.text.toList) seen out hout
    rcases h : Utils.ebSents n (sentenceSplit c.text.toList) seen out with ⟨seen', out', d⟩
    rw [h] at hlen
    dsimp only at hlen ⊢
    cases d with
    | true => exact hlen.1
    | false => exact ih seen' out' (hlen.2 rfl)

/-- C7 counterexample: with `n = 0` the summarizer appends a qualifying
sentence before checking the bound and returns one bullet, so "never more than
`n` items" fails; and `retrieval.bullet_summary` performs no key
de-duplication, returning the identical sentence twice. -/
theorem claim_C7_counterexample :
    (Utils.extractive_bullets
      [⟨"t", "u", "This particular sentence certainly contains more than forty characters."⟩]
      0).length = 1 ∧
    Retrieval.bullet_summary
        (String.toList ("This duplicated sentence is over thirty chars. " ++
          "This duplicated sentence is over thirty chars.")) 5 =
      [String.toList "This duplicated sentence is over thirty chars.",
        String.toList "This duplicated sentence is over thirty chars."] := by
  decide

/-- C7 amended: for every `n ≥ 1`, `utils.extractive_bullets` returns at most
`n` sentences, each the strip of an element of the sentence-split of some
input chunk, with pairwise distinct normalized prefix keys;
`retrieval.bullet_summary` returns at most `n` sentences, each the strip of an
element of the sentence-split of the stripped input, but does not de-duplicate
by prefix key. (For `n = 0` both variants can return one item, because the
bound is checked only after appending.) -/
theorem claim_C7_amended (chunks : List Chunk) (text : List Char) (n : Nat) (hn : 1 ≤ n) :
    (Utils.extractive_bullets chunks n).length ≤ n ∧
    (∀ x ∈ Utils.extractive_bullets chunks n,
      ∃ c ∈ chunks, ∃ s0 ∈ sentenceSplit c.text.toList, x = pyStrip s0) ∧
    (Utils.extractive_bullets chunks n).Pairwise (fun a b => sentKey a ≠ sentKey b) ∧
    (Retrieval.bullet_summary text n).length ≤ n ∧
    (∀ x ∈ Retrieval.bullet_summary text n,
      ∃ s0 ∈ sentenceSplit (pyStrip text), x = pyStrip s0) := by
  have h0 : (0 : Nat) < n := hn
  refine ⟨?_, ?_, ?_, ?_, ?_⟩
  · exact ebChunks_length chunks [] [] h0
  · intro x hx
    rcases ebChunks_mem chunks [] [] x hx with hx' | hx'
    · cases hx'
    · exact hx'
  · exact ebChunks_pairwise chunks [] [] (by intro s hs; cases hs) (List.Pairwise.nil)
  · unfold Retrieval.bullet_summary
    by_cases ht : text = []
    · rw [if_pos ht]
      simp
    · rw [if_neg ht]
      exact bsGo_length _ [] h0
  · intro x hx
    unfold Retrieval.bullet_summary at hx
    by_cases ht : text = []
    · rw [if_pos ht] at hx
      cases hx
    · rw [if_neg ht] at hx
      rcases bsGo_mem _ [] x hx with hx' | hx'
      · cases hx'
      · exact hx'

/-- Witness for C7 amended: one long-sentence chunk and a duplicated-sentence
flat text, at `n = 2`. -/
theorem claim_C7_amended_witness :
    1 ≤ 2 ∧
    ((Utils.extractive_bullets
      [⟨"t", "u", "This particular sentence certainly contains more than forty characters."⟩]
      2).length ≤ 2 ∧
    (∀ x ∈ Utils.extractive_bullets
        [⟨"t", "u", "This particular sentence certainly contains more than forty characters."⟩] 2,
      ∃ c ∈ [(⟨"t", "u",
          "This particular sentence certainly contains more than forty characters."⟩ : Chunk)],
        ∃ s0 ∈ sentenceSplit c.text.toList, x = pyStrip s0) ∧
    (Utils.extractive_bullets
      [⟨"t", "u", "This particular sentence certainly contains more than forty characters."⟩]
      2).Pairwise (fun a b => sentKey a ≠ sentKey b) ∧
    (Retrieval.bullet_summary (String.toList "One. Two.") 2).length ≤ 2 ∧
    (∀ x ∈ Retrieval.bullet_summary (String.toList "One. Two.") 2,
      ∃ s0 ∈ sentenceSplit (pyStrip (String.toList "One. Two.")), x = pyStrip s0)) :=
  ⟨by decide,
    claim_C7_amended
      [⟨"t", "u", "This particular sentence certainly contains more than forty characters."⟩]
      (String.toList "One. Two.") 2 (by decide)⟩

theorem dropWhile_keeps_nonWs :
    ∀ l : List Char, (∃ c ∈ l, c.isWhitespace = false) →
      ∃ c ∈ l.dropWhile Char.isWhitespace, c.isWhitespace = false := by
  intro l
  induction l with
  | nil =>
    intro h
    simp at h
  | cons a l ih =>
    intro h
    by_cases ha : a.isWhitespace
    · rw [List.dropWhile_cons_of_pos ha]
      rcases h with ⟨c, hc, hcw⟩
      rcases List.mem_cons.mp hc with rfl | hc
      · exact absurd ha (by simp [hcw])
      · exact ih ⟨c, hc, hcw⟩
    · rw [List.dropWhile_cons_of_neg ha]
      exact ⟨a, List.mem_cons_self a l, by simpa using ha⟩

theorem pyStrip_ne_nil_of_nonWs {l : List Char} (h : ∃ c ∈ l, c.isWhitespace = false) :
    pyStrip l ≠ [] := by
  unfold pyStrip
  have h1 := dropWhile_keeps_nonWs l h
  have h2 : ∃ c ∈ (l.dropWhile Char.isWhitespace).reverse, c.isWhitespace = false := by
    rcases h1 with ⟨c, hc, hcw⟩
    exact ⟨c, List.mem_reverse.mpr hc, hcw⟩
  have h3 := dropWhile_keeps_nonWs _ h2
  rcases h3 with ⟨c, hc, _⟩
  intro hnil
  rw [List.reverse_eq_nil_iff] at hnil
  rw [hnil] at hc
  cases hc

theorem pyStrip_head_not_ws (l : List Char) (h : pyStrip l ≠ []) :
    ∃ c r, pyStrip l = c :: r ∧ c.isWhitespace = false := by
  rcases hps : pyStrip l with _ | ⟨c, r⟩
  · exact absurd hps h
  · refine ⟨c, r, rfl, ?_⟩
    unfold pyStrip at hps
    obtain ⟨t, ht⟩ :=
      List.dropWhile_suffix (l := (l.dropWhile Char.isWhitespace).reverse) Char.isWhitespace
    have hu : l.dropWhile Char.isWhitespace = (c :: r) ++ t.reverse := by
      have h' := congrArg List.reverse ht
      rw [List.reverse_append, List.reverse_reverse, hps] at h'
      exact h'.symm
    have hune : l.dropWhile Char.isWhitespace ≠ [] := by
      rw [hu]
      simp
    have hhn := List.head_dropWhile_not Char.isWhitespace l hune
    have hhead : (l.dropWhile Char.isWhitespace).head hune = c := by
      simp [hu]
    rw [hhead] at hhn
    exact hhn

theorem pyStrip_length_le (l : List Char) : (pyStrip l).length ≤ l.length := by
  unfold pyStrip
  have h1 := (List.dropWhile_suffix (l := l) Char.isWhitespace).sublist.length_le
  have h2 := (List.dropWhile_suffix
    (l := (l.dropWhile Char.isWhitespace).reverse) Char.isWhitespace).sublist.length_le
  simp only [List.length_reverse] at h2 ⊢
  omega

/-- C8 counterexample: when the whole cleaned text is at most 180 characters
the fallback bullet is the text itself, with no truncation marker, contrary to
the claim that the single returned element carries a truncation marker. -/
theorem claim_C8_counterexample :
    App.make_bullets (String.toList "hi there") 2 = [String.toList "hi there"] ∧
    (∀ b ∈ App.make_bullets (String.toList "hi there") 2, ¬ '…' ∈ b) := by
  decide

/-- C8 amended: for non-empty input in which no sentence reaches the 35-char
floor, `app.make_bullets` returns exactly one bullet, never empty and of
length at most 181: the cleaned text truncated to 180 characters, with the
marker `…` appended exactly when the cleaned text exceeds 180 characters. -/
theorem claim_C8_amended (text : List Char) (n : Nat)
    (h1 : pyStrip text ≠ [])
    (h2 : ((sentenceSplit (collapseWs (pyStrip text))).map pyStrip).filter
      (fun s => 35 ≤ s.length) = []) :
    App.make_bullets text n =
      [pyStrip ((collapseWs (pyStrip text)).take 180) ++
        (if 180 < (collapseWs (pyStrip text)).length then ['…'] else [])] ∧
    (∀ b ∈ App.make_bullets text n, b ≠ [] ∧ b.length ≤ 181) := by
  have heq : App.make_bullets text n =
      [pyStrip ((collapseWs (pyStrip text)).take 180) ++
        (if 180 < (collapseWs (pyStrip text)).length then ['…'] else [])] := by
    unfold App.make_bullets
    rw [if_neg h1]
    dsimp only
    rw [if_pos h2]
  refine ⟨heq, ?_⟩
  intro b hb
  rw [heq, List.mem_singleton] at hb
  subst hb
  obtain ⟨c, r, hcr, hcw⟩ := pyStrip_head_not_ws text h1
  have hcol : collapseWs (pyStrip text) = c :: collapseWsAux r false := by
    rw [hcr]
    show collapseWsAux (c :: r) false = c :: collapseWsAux r false
    rw [collapseWsAux, if_neg (by simp [hcw])]
  have htake : (collapseWs (pyStrip text)).take 180 =
      c :: (collapseWsAux r false).take 179 := by
    rw [hcol]
    rfl
  have hne : pyStrip ((collapseWs (pyStrip text)).take 180) ≠ [] := by
    apply pyStrip_ne_nil_of_nonWs
    rw [htake]
    exact ⟨c, List.mem_cons_self _ _, hcw⟩
  constructor
  · intro hnil
    rw [List.append_eq_nil] at hnil
    exact hne hnil.1
  · have hl1 : (pyStrip ((collapseWs (pyStrip text)).take 180)).length ≤ 180 := by
      have := pyStrip_length_le ((collapseWs (pyStrip text)).take 180)
      have h180 : ((collapseWs (pyStrip text)).take 180).length ≤ 180 := by
        simp [List.length_take]
      omega
    have hl2 : (if 180 < (collapseWs (pyStrip text)).length then ['…'] else
        ([] : List Char)).length ≤ 1 := by
      by_cases hc180 : 180 < (collapseWs (pyStrip text)).length
      · rw [if_pos hc180]
        decide
      · rw [if_neg hc180]
        decide
    rw [List.length_append]
    omega

/-- Witness for C8 amended: a short text whose single sentence is below the
length floor. -/
theorem claim_C8_amended_witness :
    pyStrip (String.toList "Short text.") ≠ [] ∧
    ((sentenceSplit (collapseWs (pyStrip (String.toList "Short text.")))).map pyStrip).filter
      (fun s => 35 ≤ s.length) = [] ∧
    App.make_bullets (String.toList "Short text.") 3 =
      [pyStrip ((collapseWs (pyStrip (String.toList "Short text."))).take 180) ++
        (if 180 < (collapseWs (pyStrip (String.toList "Short text."))).length then ['…']
          else [])] ∧
    (∀ b ∈ App.make_bullets (String.toList "Short text.") 3, b ≠ [] ∧ b.length ≤ 181) := by
  have h := claim_C8_amended (String.toList "Short text.") 3 (by decide) (by decide)
  exact ⟨by decide, by decide, h.1, h.2⟩

theorem chunkStartsF_cons (len c o fuel i : Nat) (hfuel : len - i < fuel) (hi : i < len) :
    ∃ tail, Utils.chunkStartsF len c o fuel i = i :: tail := by
  cases fuel with
  | zero => exact absurd hfuel (by omega)
  | succ fuel =>
    rw [Utils.chunkStartsF, if_pos hi]
    by_cases hend : len ≤ i + c
    · exact ⟨[], by rw [if_pos hend]⟩
    · exact ⟨_, by rw [if_neg hend]⟩

theorem chunkStartsF_dropLast_lt {len c o : Nat} (hco : o < c) :
    ∀ fuel i, len - i < fuel →
      ∀ s ∈ (Utils.chunkStartsF len c o fuel i).dropLast, s + c < len := by
  intro fuel
  induction fuel with
  | zero =>
    intro i h
    exact absurd h (by omega)
  | succ fuel ih =>
    intro i h s hs
    by_cases hi : i < len
    · rw [Utils.chunkStartsF, if_pos hi] at hs
      by_cases hend : len ≤ i + c
      · rw [if_pos hend] at hs
        simp at hs
      · rw [if_neg hend] at hs
        obtain ⟨tail, htail⟩ := chunkStartsF_cons len c o fuel (i + (c - o)) (by omega) (by omega)
        rw [htail] at hs
        have hdl : (i :: (i + (c - o)) :: tail).dropLast =
            i :: ((i + (c - o)) :: tail).dropLast := rfl
        rw [hdl] at hs
        rcases List.mem_cons.mp hs with rfl | hs
        · omega
        · refine ih (i + (c - o)) (by omega) s ?_
          rw [htail]
          exact hs
    · rw [Utils.chunkStartsF, if_neg hi] at hs
      simp at hs

theorem chunkStartsF_chain {len c o : Nat} (hco : o < c) :
    ∀ fuel i, len - i < fuel →
      (Utils.chunkStartsF len c o fuel i).Chain'
        (fun a b => b = a + (c - o) ∧ a + c < len) := by
  intro fuel
  induction fuel with
  | zero =>
    intro i h
    exact absurd h (by omega)
  | succ fuel ih =>
    intro i h
    rw [Utils.chunkStartsF]
    by_cases hi : i < len
    · rw [if_pos hi]
      by_cases hend : len ≤ i + c
      · rw [if_pos hend]
        exact List.chain'_singleton i
      · rw [if_neg hend]
        obtain ⟨tail, htail⟩ := chunkStartsF_cons len c o fuel (i + (c - o)) (by omega) (by omega)
        rw [htail, List.chain'_cons]
        refine ⟨⟨rfl, by omega⟩, ?_⟩
        rw [← htail]
        exact ih (i + (c - o)) (by omega)
    · rw [if_neg hi]
      exact List.chain'_nil

theorem chunkStartsF_getLast {len c o : Nat} (hco : o < c) :
    ∀ fuel i, len - i < fuel → i < len →
      ∃ s, (Utils.chunkStartsF len c o fuel i).getLast? = some s ∧
        len ≤ s + c ∧ s < len := by
  intro fuel
  induction fuel with
  | zero =>
    intro i h _
    exact absurd h (by omega)
  | succ fuel ih =>
    intro i h hi
    rw [Utils.chunkStartsF, if_pos hi]
    by_cases hend : len ≤ i + c
    · refine ⟨i, ?_, hend, hi⟩
      rw [if_pos hend]
      rfl
    · rw [if_neg hend]
      obtain ⟨tail, htail⟩ := chunkStartsF_cons len c o fuel (i + (c - o)) (by omega) (by omega)
      obtain ⟨s, hs, hsc, hsl⟩ := ih (i + (c - o)) (by omega) (by omega)
      refine ⟨s, ?_, hsc, hsl⟩
      rw [htail, List.getLast?_cons_cons, ← htail]
      exact hs

theorem chunkStartsF_cover {len c o : Nat} (hco : o < c) :
    ∀ fuel i p, len - i < fuel → i ≤ p → p < len →
      ∃ s ∈ Utils.chunkStartsF len c o fuel i, s ≤ p ∧ p < s + c := by
  intro fuel
  induction fuel with
  | zero =>
    intro i p h _ _
    exact absurd h (by omega)
  | succ fuel ih =>
    intro i p h hip hpl
    have hi : i < len := lt_of_le_of_lt hip hpl
    rw [Utils.chunkStartsF, if_pos hi]
    by_cases hend : len ≤ i + c
    · rw [if_pos hend]
      exact ⟨i, List.mem_singleton.mpr rfl, hip, by omega⟩
    · rw [if_neg hend]
      by_cases hpc : p < i + c
      · exact ⟨i, List.mem_cons_self _ _, hip, hpc⟩
      · obtain ⟨s, hsmem, hsp, hps⟩ := ih (i + (c - o)) p (by omega) (by omega) hpl
        exact ⟨s, List.mem_cons_of_mem _ hsmem, hsp, hps⟩

theorem chunkTextFuel_eq_windows (t : List Char) (c o : Nat) (hco : o < c) :
    ∀ fuel i, t.length - i < fuel →
      Utils.chunkTextFuel t c o fuel i =
        some ((Utils.chunkStartsF t.length c o fuel i).map fun s => (t.drop s).take c) := by
  intro fuel
  induction fuel with
  | zero =>
    intro i h
    exact absurd h (by omega)
  | succ fuel ih =>
    intro i h
    rw [Utils.chunkTextFuel, Utils.chunkStartsF]
    by_cases hi : i < t.length
    · rw [if_pos hi, if_pos hi]
      dsimp only
      by_cases hend : t.length ≤ i + c
      · have hmin : min t.length (i + c) = t.length := Nat.min_eq_left hend
        rw [if_pos hend, hmin, if_pos rfl]
        have h1 : (t.drop i).take (t.length - i) = t.drop i := by
          rw [← List.length_drop i t]
          exact List.take_length _
        have h2 : (t.drop i).take c = t.drop i :=
          List.take_of_length_le (by rw [List.length_drop]; omega)
        rw [h1]
        simp [h2]
      · have hlt : i + c < t.length := by omega
        have hmin : min t.length (i + c) = i + c := Nat.min_eq_right (le_of_lt hlt)
        rw [if_neg hend, hmin, if_neg (by omega : ¬ i + c = t.length)]
        have hio : i + c - o = i + (c - o) := by omega
        rw [hio, ih (i + (c - o)) (by omega)]
        dsimp only
        have hpiece : i + c - i = c := by omega
        rw [hpiece]
        rfl
    · rw [if_neg hi, if_neg hi]
      rfl

/-- C10: for valid parameters on a non-blank text, `utils.chunk_text` (with
ample fuel, which now suffices) returns the windows of length `chunk_chars` at
its loop's start offsets; every non-final window is exactly `chunk_chars`
long, each consecutive pair overlaps in exactly `overlap` characters (the next
window's first `overlap` characters are the previous window's last `overlap`
characters), the final window is the non-empty tail slice of the stripped text
(so it ends at the last character), and every position of the stripped text is
covered by some window. -/
theorem claim_C10 (text : List Char) (chunk_chars overlap : Nat)
    (hco : overlap < chunk_chars) (hne : pyStrip text ≠ []) :
    Utils.chunk_text text chunk_chars overlap ((pyStrip text).length + 1) =
      some (Utils.chunkWindows (pyStrip text) chunk_chars overlap) ∧
    (∀ x ∈ (Utils.chunkWindows (pyStrip text) chunk_chars overlap).dropLast,
      x.length = chunk_chars) ∧
    (Utils.chunkWindows (pyStrip text) chunk_chars overlap).Chain'
      (fun a b => b.take overlap = a.drop (chunk_chars - overlap)) ∧
    (∃ s, (Utils.chunkStartsF (pyStrip text).length chunk_chars overlap
        ((pyStrip text).length + 1) 0).getLast? = some s ∧ s < (pyStrip text).length ∧
      (Utils.chunkWindows (pyStrip text) chunk_chars overlap).getLast? =
        some ((pyStrip text).drop s) ∧ (pyStrip text).drop s ≠ []) ∧
    (∀ p < (pyStrip text).length,
      ∃ s ∈ Utils.chunkStartsF (pyStrip text).length chunk_chars overlap
          ((pyStrip text).length + 1) 0, s ≤ p ∧ p < s + chunk_chars) := by
  have hlen0 : 0 < (pyStrip text).length := List.length_pos.mpr hne
  have hfuel : (pyStrip text).length - 0 < (pyStrip text).length + 1 := by omega
  refine ⟨?_, ?_, ?_, ?_, ?_⟩
  · unfold Utils.chunk_text
    rw [if_neg hne, Utils.chunkWindows]
    exact chunkTextFuel_eq_windows (pyStrip text) chunk_chars overlap hco _ 0 hfuel
  · intro x hx
    rw [Utils.chunkWindows, ← List.map_dropLast] at hx
    obtain ⟨s, hsmem, hfs⟩ := List.mem_map.mp hx
    have hslt : s + chunk_chars < (pyStrip text).length :=
      chunkStartsF_dropLast_lt hco _ 0 hfuel s hsmem
    rw [← hfs, List.length_take, List.length_drop]
    exact Nat.min_eq_left (by omega)
  · rw [Utils.chunkWindows, List.chain'_map]
    refine (chunkStartsF_chain hco _ 0 hfuel).imp ?_
    intro a b hab
    rcases hab with ⟨rfl, hlt⟩
    rw [List.take_take, Nat.min_eq_left (le_of_lt hco), List.drop_take, List.drop_drop]
    have hco' : chunk_chars - (chunk_chars - overlap) = overlap := by omega
    rw [hco']
  · obtain ⟨s, hs, hsc, hsl⟩ := chunkStartsF_getLast hco _ 0 hfuel hlen0
    refine ⟨s, hs, hsl, ?_, ?_⟩
    · rw [Utils.chunkWindows, List.getLast?_map, hs]
      have h2 : ((pyStrip text).drop s).take chunk_chars = (pyStrip text).drop s :=
        List.take_of_length_le (by rw [List.length_drop]; omega)
      rw [Option.map_some']
      rw [h2]
    · intro hnil
      have := congrArg List.length hnil
      rw [List.length_drop] at this
      simp at this
      omega
  · intro p hp
    exact chunkStartsF_cover hco _ 0 p hfuel (Nat.zero_le p) hp

/-- Witness for C10: the ten-character text with windows of four and overlap
one. -/
theorem claim_C10_witness :
    1 < 4 ∧ pyStrip (String.toList "abcdefghij") ≠ [] ∧
    (Utils.chunk_text (String.toList "abcdefghij") 4 1
        ((pyStrip (String.toList "abcdefghij")).length + 1) =
      some (Utils.chunkWindows (pyStrip (String.toList "abcdefghij")) 4 1) ∧
    (∀ x ∈ (Utils.chunkWindows (pyStrip (String.toList "abcdefghij")) 4 1).dropLast,
      x.length = 4) ∧
    (Utils.chunkWindows (pyStrip (String.toList "abcdefghij")) 4 1).Chain'
      (fun a b => b.take 1 = a.drop (4 - 1)) ∧
    (∃ s, (Utils.chunkStartsF (pyStrip (String.toList "abcdefghij")).length 4 1
        ((pyStrip (String.toList "abcdefghij")).length + 1) 0).getLast? = some s ∧
      s < (pyStrip (String.toList "abcdefghij")).length ∧
      (Utils.chunkWindows (pyStrip (String.toList "abcdefghij")) 4 1).getLast? =
        some ((pyStrip (String.toList "abcdefghij")).drop s) ∧
      (pyStrip (String.toList "abcdefghij")).drop s ≠ []) ∧
    (∀ p < (pyStrip (String.toList "abcdefghij")).length,
      ∃ s ∈ Utils.chunkStartsF (pyStrip (String.toList "abcdefghij")).length 4 1
          ((pyStrip (String.toList "abcdefghij")).length + 1) 0, s ≤ p ∧ p < s + 4)) :=
  ⟨by decide, by decide,
    claim_C10 (String.toList "abcdefghij") 4 1 (by decide) (by decide)⟩

